import Mathlib

/-!
A verification development for the `spgill/enigma` rotor-cipher machine.

The definitions below are a shallow embedding of `rotors.py` and
`machine.py`: Python lists become `List`, machine integers become `Int`
(Python integers are unbounded), mutation becomes explicit state passing,
and letters are represented by their alphabet index (`'A' = 0`, ...,
`'Z' = 25`), which is exactly the pin representation the Python code
itself works with after `_abet.index`.
-/

namespace Enigma

/-- Python `_RotorBase._loop`: constrain `n` to the circular range
`[wiring_start, wiring_end] = [0, size - 1]` with a `while` loop that
subtracts `size` while the value is above the end and adds `size` while it
is below the start.  The Python loop diverges for `size = 0`; no rotor has
an empty wiring, and the model returns `n` unchanged in that unreachable
case. -/
def loop (size : Nat) (n : Int) : Int :=
  if _hz : size = 0 then n
  else if _hc : n < 0 ∨ n > (size : Int) - 1 then
    let n1 := if n > (size : Int) - 1 then n - size else n
    let n2 := if n1 < 0 then n1 + size else n1
    loop size n2
  else n
termination_by ((-n).toNat + (n - ((size : Int) - 1)).toNat)
decreasing_by
  simp_wf
  split_ifs <;> omega

/-- The wiring-loop normalization is plain remainder arithmetic. -/
theorem loop_emod (size : Nat) (hs : 0 < size) :
    ∀ n : Int, loop size n = n % (size : Int) := by
  have key : ∀ (k : Nat) (n : Int),
      ((-n).toNat + (n - ((size : Int) - 1)).toNat) ≤ k →
      loop size n = n % (size : Int) := by
    intro k
    induction k with
    | zero =>
      intro n hn
      rw [loop.eq_def, dif_neg (by omega : ¬ size = 0),
        dif_neg (by omega : ¬ (n < 0 ∨ n > (size : Int) - 1))]
      have := Int.emod_eq_of_lt (by omega : 0 ≤ n) (by omega : n < (size : Int))
      omega
    | succ k ih =>
      intro n hn
      by_cases hc : n < 0 ∨ n > (size : Int) - 1
      · rw [loop.eq_def, dif_neg (by omega : ¬ size = 0), dif_pos hc]
        rcases em (n > (size : Int) - 1) with h1 | h1
        · simp only [if_pos h1, if_neg (by omega : ¬ n - (size : Int) < 0)]
          rw [ih (n - (size : Int)) (by omega)]
          rw [show n - (size : Int) = n + (size : Int) * (-1) by ring,
            Int.add_mul_emod_self_left]
        · have hneg : n < 0 := by omega
          simp only [if_neg h1, if_pos hneg]
          rw [ih (n + (size : Int)) (by omega)]
          rw [show n + (size : Int) = n + (size : Int) * 1 by ring,
            Int.add_mul_emod_self_left]
      · rw [loop.eq_def, dif_neg (by omega : ¬ size = 0), dif_neg hc]
        have := Int.emod_eq_of_lt (by omega : 0 ≤ n) (by omega : n < (size : Int))
        omega
  exact fun n => key _ n (Nat.le_refl _)

/-- The result of `_loop` lies in `[0, size)` whenever `size ≥ 1`. -/
theorem loop_mem (size : Nat) (hs : 0 < size) (n : Int) :
    0 ≤ loop size n ∧ loop size n < (size : Int) := by
  rw [loop_emod size hs]
  exact ⟨Int.emod_nonneg n (by omega), Int.emod_lt_of_pos n (by exact_mod_cast hs)⟩

/-- A rotor as built by `_RotorBase.__init__`: the two delta wiring tables,
the mutable offset (`self.setting`), and the notch positions.  Letters are
already converted to alphabet indices (`_abet.index`), as the Python
constructor does. -/
structure Rotor where
  wiringSize : Nat
  wiringForward : List Int
  wiringReverse : List Int
  setting : Int
  notches : List Int
deriving Repr, DecidableEq

/-- The wiring-matrix loop of `_RotorBase.__init__`:
`for i in range(size): x = i; y = wiring[i];
 wiring_forward[x] = y - x; wiring_reverse[y] = x - y`,
starting from two identity tables `list(range(size))`. -/
def buildTables (w : List Nat) : List Int × List Int :=
  (List.range w.length).foldl
    (fun t i =>
      let y := w.getD i 0
      (t.1.set i ((y : Int) - (i : Int)), t.2.set y ((i : Int) - (y : Int))))
    ((List.range w.length).map Int.ofNat,
     (List.range w.length).map Int.ofNat)

/-- Python `_RotorBase.__init__` with the wiring given as a list of alphabet
indices, the initial setting already resolved to an index
(`self.setting = self._abet.index(setting)`, default `0`), and the notch
letters already resolved to indices. -/
def mkRotor (w : List Nat) (setting : Int) (notches : List Int) : Rotor :=
  { wiringSize := w.length
    wiringForward := (buildTables w).1
    wiringReverse := (buildTables w).2
    setting := setting
    notches := notches }

instance : Inhabited Rotor := ⟨mkRotor [] 0 []⟩

/-- Python `_RotorBase.step`: report whether the pre-increment setting sits on a
notch, then advance the setting by one position (wrapped by `_loop`). -/
def Rotor.step (r : Rotor) : Rotor × Bool :=
  let notch := r.setting ∈ r.notches
  ({ r with setting := loop r.wiringSize (r.setting + 1) }, notch)

/-- Python `_RotorBase.translateForward`:
`modifier = wiring_forward[_loop(pin_in + setting)];
 out = _loop(pin_in + modifier)`. -/
def Rotor.translateForward (r : Rotor) (pin : Int) : Int :=
  let modifier := r.wiringForward.getD (loop r.wiringSize (pin + r.setting)).toNat 0
  loop r.wiringSize (pin + modifier)

/-- Python `_RotorBase.translateReverse`:
`modifier = wiring_reverse[_loop(pin_in + setting)];
 out = _loop(pin_in + modifier)`. -/
def Rotor.translateReverse (r : Rotor) (pin : Int) : Int :=
  let modifier := r.wiringReverse.getD (loop r.wiringSize (pin + r.setting)).toNat 0
  loop r.wiringSize (pin + modifier)

/-! ### Characterizing the wiring tables built by `__init__` -/

theorem foldl_pair_split {ι α β : Type} (l : List ι)
    (f : List α → ι → List α) (g : List β → ι → List β)
    (a : List α) (b : List β) :
    l.foldl (fun p x => (f p.1 x, g p.2 x)) (a, b) = (l.foldl f a, l.foldl g b) := by
  induction l generalizing a b with
  | nil => rfl
  | cons x t ih => simp only [List.foldl_cons, ih]

theorem foldl_set_length {ι α : Type} (l : List ι) (f : ι → Nat) (g : ι → α)
    (init : List α) :
    (l.foldl (fun acc a => acc.set (f a) (g a)) init).length = init.length := by
  induction l generalizing init with
  | nil => rfl
  | cons b t ih => simp only [List.foldl_cons, ih, List.length_set]

theorem foldl_set_getElem?_of_not_mem {ι α : Type} (l : List ι) (f : ι → Nat)
    (g : ι → α) (init : List α) (j : Nat) (hj : ∀ a ∈ l, f a ≠ j) :
    (l.foldl (fun acc a => acc.set (f a) (g a)) init)[j]? = init[j]? := by
  induction l generalizing init with
  | nil => rfl
  | cons b t ih =>
    simp only [List.foldl_cons]
    rw [ih _ (fun a ha => hj a (List.mem_cons_of_mem b ha))]
    exact List.getElem?_set_ne (hj b (List.mem_cons_self b t))

theorem foldl_set_getElem?_of_write {ι α : Type} (l : List ι) (f : ι → Nat)
    (g : ι → α) (init : List α) (hnd : (l.map f).Nodup)
    (a : ι) (ha : a ∈ l) (hlt : f a < init.length) :
    (l.foldl (fun acc x => acc.set (f x) (g x)) init)[f a]? = some (g a) := by
  induction l generalizing init with
  | nil => cases ha
  | cons b t ih =>
    simp only [List.map_cons, List.nodup_cons] at hnd
    simp only [List.foldl_cons]
    rcases List.mem_cons.mp ha with rfl | hat
    · rw [foldl_set_getElem?_of_not_mem _ _ _ _ _
        (fun x hx hcontra => hnd.1 (by rw [← hcontra]; exact List.mem_map_of_mem f hx))]
      rw [List.getElem?_set_self (by simpa using hlt)]
    · exact ih _ hnd.2 hat (by simpa using hlt)

theorem map_getD_range {α : Type} (l : List α) (d : α) :
    (List.range l.length).map (fun i => l.getD i d) = l := by
  apply List.ext_getElem (by simp)
  intro i h1 h2
  simp only [List.getElem_map, List.getElem_range]
  exact List.getD_eq_getElem l d h2

theorem buildTables_eq (w : List Nat) :
    buildTables w =
      ((List.range w.length).foldl
          (fun acc i => acc.set i ((w.getD i 0 : Int) - (i : Int)))
          ((List.range w.length).map Int.ofNat),
       (List.range w.length).foldl
          (fun acc i => acc.set (w.getD i 0) ((i : Int) - (w.getD i 0 : Int)))
          ((List.range w.length).map Int.ofNat)) := by
  unfold buildTables
  exact foldl_pair_split (List.range w.length)
    (fun acc i => acc.set i ((w.getD i 0 : Int) - (i : Int)))
    (fun acc i => acc.set (w.getD i 0) ((i : Int) - (w.getD i 0 : Int))) _ _

theorem buildTables_fst_getD (w : List Nat) (j : Nat) (hj : j < w.length) :
    (buildTables w).1.getD j 0 = (w.getD j 0 : Int) - (j : Int) := by
  rw [List.getD_eq_getElem?_getD, buildTables_eq]
  have h := foldl_set_getElem?_of_write (List.range w.length) (fun i => i)
    (fun i => (w.getD i 0 : Int) - (i : Int))
    ((List.range w.length).map Int.ofNat)
    (by simpa using List.nodup_range w.length) j
    (List.mem_range.mpr hj) (by simpa using hj)
  rw [h]
  rfl

/-- An element fetched in range is an element of the list. -/
theorem getD_lt_of_lt (w : List Nat) (hb : ∀ x ∈ w, x < w.length)
    (i : Nat) (hi : i < w.length) : w.getD i 0 < w.length := by
  rw [List.getD_eq_getElem w 0 hi]
  exact hb _ (List.getElem_mem hi)

theorem buildTables_snd_getD (w : List Nat) (hnd : w.Nodup)
    (hb : ∀ x ∈ w, x < w.length) (i : Nat) (hi : i < w.length) :
    (buildTables w).2.getD (w.getD i 0) 0 = (i : Int) - (w.getD i 0 : Int) := by
  rw [List.getD_eq_getElem?_getD, buildTables_eq]
  have h := foldl_set_getElem?_of_write (List.range w.length)
    (fun i => w.getD i 0)
    (fun i => (i : Int) - (w.getD i 0 : Int))
    ((List.range w.length).map Int.ofNat)
    (by rw [map_getD_range]; exact hnd) i
    (List.mem_range.mpr hi)
    (by
      simp only [List.length_map, List.length_range]
      exact getD_lt_of_lt w hb i hi)
  rw [h]
  rfl

/-- Evaluating `translateForward` on a constructed rotor gives
`(wiring[(pin + setting) mod size] - setting) mod size`. -/
theorem translateForward_mkRotor (w : List Nat) (s : Int) (nt : List Int)
    (hw : 0 < w.length) (p : Int) :
    (mkRotor w s nt).translateForward p =
      ((w.getD ((p + s) % (w.length : Int)).toNat 0 : Int) - s) % (w.length : Int) := by
  have hN : (0 : Int) < (w.length : Int) := by exact_mod_cast hw
  have hi0 : 0 ≤ (p + s) % (w.length : Int) := Int.emod_nonneg _ (by omega)
  have hiN : (p + s) % (w.length : Int) < (w.length : Int) := Int.emod_lt_of_pos _ hN
  have hiNat : ((p + s) % (w.length : Int)).toNat < w.length := by omega
  show loop w.length (p + (buildTables w).1.getD (loop w.length (p + s)).toNat 0) = _
  rw [loop_emod _ hw (p + s), buildTables_fst_getD w _ hiNat, loop_emod _ hw,
    Int.toNat_of_nonneg hi0]
  rw [show p + ((w.getD ((p + s) % (w.length : Int)).toNat 0 : Int)
        - (p + s) % (w.length : Int))
      = ((w.getD ((p + s) % (w.length : Int)).toNat 0 : Int) - s)
        + (w.length : Int) * ((p + s) / (w.length : Int)) by
    rw [Int.emod_def]; ring]
  rw [Int.add_mul_emod_self_left]

/-- Evaluating `translateReverse` on a constructed rotor, evaluated at a pin whose
shifted contact is the wiring image of position `j`, lands back on
`(j - setting) mod size`. -/
theorem translateReverse_mkRotor (w : List Nat) (s : Int) (nt : List Int)
    (hnd : w.Nodup) (hb : ∀ x ∈ w, x < w.length) (hw : 0 < w.length)
    (q : Int) (j : Nat) (hj : j < w.length)
    (hq : (q + s) % (w.length : Int) = (w.getD j 0 : Int)) :
    (mkRotor w s nt).translateReverse q = ((j : Int) - s) % (w.length : Int) := by
  show loop w.length (q + (buildTables w).2.getD (loop w.length (q + s)).toNat 0) = _
  rw [loop_emod _ hw (q + s), hq]
  rw [show ((w.getD j 0 : Nat) : Int).toNat = w.getD j 0 by omega]
  rw [buildTables_snd_getD w hnd hb j hj, loop_emod _ hw]
  rw [show q + ((j : Int) - (w.getD j 0 : Int))
      = ((j : Int) - s) + (w.length : Int) * ((q + s) / (w.length : Int)) by
    rw [← hq, Int.emod_def]; ring]
  rw [Int.add_mul_emod_self_left]

/-- Wiring permutation hypothesis: the wiring list is a permutation of the
alphabet positions `[0, length)`. -/
@[reducible] def PermWiring (w : List Nat) : Prop :=
  0 < w.length ∧ w.Nodup ∧ ∀ x ∈ w, x < w.length

/-- A permutation wiring hits every alphabet position. -/
theorem permWiring_surj (w : List Nat) (hp : PermWiring w)
    (j : Nat) (hj : j < w.length) : ∃ i, i < w.length ∧ w.getD i 0 = j := by
  obtain ⟨-, hnd, hb⟩ := hp
  have hsub : w.toFinset ⊆ Finset.range w.length := fun x hx =>
    Finset.mem_range.mpr (hb x (List.mem_toFinset.mp hx))
  have hcard : (Finset.range w.length).card ≤ w.toFinset.card := by
    rw [Finset.card_range, List.toFinset_card_of_nodup hnd]
  have heq := Finset.eq_of_subset_of_card_le hsub hcard
  have hmem : j ∈ w := by
    rw [← List.mem_toFinset, heq]
    exact Finset.mem_range.mpr hj
  obtain ⟨i, hi, h⟩ := List.getElem_of_mem hmem
  exact ⟨i, hi, by rw [List.getD_eq_getElem w 0 hi]; exact h⟩

/-- At a fixed offset `translateReverse` undoes `translateForward`. -/
theorem translateReverse_translateForward (w : List Nat) (s : Int) (nt : List Int)
    (hp : PermWiring w) (p : Int) (h0 : 0 ≤ p) (hN : p < (w.length : Int)) :
    (mkRotor w s nt).translateReverse ((mkRotor w s nt).translateForward p) = p := by
  obtain ⟨hw, hnd, hb⟩ := hp
  have hNpos : (0 : Int) < (w.length : Int) := by exact_mod_cast hw
  have hi0 : 0 ≤ (p + s) % (w.length : Int) := Int.emod_nonneg _ (by omega)
  have hiN : (p + s) % (w.length : Int) < (w.length : Int) := Int.emod_lt_of_pos _ hNpos
  have hiNat : ((p + s) % (w.length : Int)).toNat < w.length := by omega
  rw [translateForward_mkRotor w s nt hw p]
  have hwb : (w.getD ((p + s) % (w.length : Int)).toNat 0 : Int) < (w.length : Int) := by
    exact_mod_cast getD_lt_of_lt w hb _ hiNat
  have hq : (((w.getD ((p + s) % (w.length : Int)).toNat 0 : Int) - s) % (w.length : Int) + s)
      % (w.length : Int) = (w.getD ((p + s) % (w.length : Int)).toNat 0 : Int) := by
    rw [Int.emod_add_emod, sub_add_cancel]
    exact Int.emod_eq_of_lt (Int.natCast_nonneg _) hwb
  rw [translateReverse_mkRotor w s nt hnd hb hw _ _ hiNat hq]
  rw [Int.toNat_of_nonneg hi0, sub_eq_add_neg, Int.emod_add_emod, ← sub_eq_add_neg,
    add_sub_cancel_right]
  exact Int.emod_eq_of_lt h0 hN

/-- Conversely `translateForward` undoes `translateReverse` at a fixed offset
(the two wiring tables are mutually inverse for a permutation wiring). -/
theorem translateForward_translateReverse (w : List Nat) (s : Int) (nt : List Int)
    (hp : PermWiring w) (q : Int) (h0 : 0 ≤ q) (hN : q < (w.length : Int)) :
    (mkRotor w s nt).translateForward ((mkRotor w s nt).translateReverse q) = q := by
  obtain ⟨hw, hnd, hb⟩ := hp
  have hNpos : (0 : Int) < (w.length : Int) := by exact_mod_cast hw
  have hj0 : 0 ≤ (q + s) % (w.length : Int) := Int.emod_nonneg _ (by omega)
  have hjN : (q + s) % (w.length : Int) < (w.length : Int) := Int.emod_lt_of_pos _ hNpos
  have hjNat : ((q + s) % (w.length : Int)).toNat < w.length := by omega
  obtain ⟨i, hi, hwi⟩ := permWiring_surj w ⟨hw, hnd, hb⟩ _ hjNat
  have hq : (q + s) % (w.length : Int) = (w.getD i 0 : Int) := by
    rw [hwi]
    omega
  rw [translateReverse_mkRotor w s nt hnd hb hw q i hi hq]
  rw [translateForward_mkRotor w s nt hw]
  have hstep : (((i : Int) - s) % (w.length : Int) + s) % (w.length : Int) = (i : Int) := by
    rw [Int.emod_add_emod, sub_add_cancel]
    exact Int.emod_eq_of_lt (Int.natCast_nonneg _) (by exact_mod_cast hi)
  rw [hstep]
  rw [show ((i : Int)).toNat = i by omega, ← hq]
  rw [sub_eq_add_neg, Int.emod_add_emod, ← sub_eq_add_neg, add_sub_cancel_right]
  exact Int.emod_eq_of_lt h0 hN

/-- Any `translateForward` output lands inside `[0, wiring_size)`. -/
theorem Rotor.translateForward_mem (r : Rotor) (h : 0 < r.wiringSize) (p : Int) :
    0 ≤ r.translateForward p ∧ r.translateForward p < (r.wiringSize : Int) :=
  loop_mem _ h _

/-- Any `translateReverse` output lands inside `[0, wiring_size)`. -/
theorem Rotor.translateReverse_mem (r : Rotor) (h : 0 < r.wiringSize) (p : Int) :
    0 ≤ r.translateReverse p ∧ r.translateReverse p < (r.wiringSize : Int) :=
  loop_mem _ h _

/-- A well-formed rotor of alphabet size `N`: one built by
`_RotorBase.__init__` from a wiring that is a permutation of the alphabet
(in the catalogue every wiring string is such a permutation). -/
def RotorWF (N : Nat) (r : Rotor) : Prop :=
  ∃ w s nt, r = mkRotor w s nt ∧ w.length = N ∧ PermWiring w

theorem RotorWF.size {N : Nat} {r : Rotor} (h : RotorWF N r) : r.wiringSize = N := by
  obtain ⟨w, s, nt, rfl, hlen, -⟩ := h
  exact hlen

theorem RotorWF.tf_mem {N : Nat} {r : Rotor} (h : RotorWF N r) (hN : 0 < N) (p : Int) :
    0 ≤ r.translateForward p ∧ r.translateForward p < (N : Int) := by
  have := r.translateForward_mem (by rw [h.size]; exact hN) p
  rw [h.size] at this
  exact this

theorem RotorWF.tr_mem {N : Nat} {r : Rotor} (h : RotorWF N r) (hN : 0 < N) (p : Int) :
    0 ≤ r.translateReverse p ∧ r.translateReverse p < (N : Int) := by
  have := r.translateReverse_mem (by rw [h.size]; exact hN) p
  rw [h.size] at this
  exact this

theorem RotorWF.tr_tf {N : Nat} {r : Rotor} (h : RotorWF N r) (p : Int)
    (h0 : 0 ≤ p) (hp : p < (N : Int)) :
    r.translateReverse (r.translateForward p) = p := by
  obtain ⟨w, s, nt, rfl, hlen, hperm⟩ := h
  exact translateReverse_translateForward w s nt hperm p h0 (by rw [hlen]; exact hp)

theorem RotorWF.tf_tr {N : Nat} {r : Rotor} (h : RotorWF N r) (q : Int)
    (h0 : 0 ≤ q) (hq : q < (N : Int)) :
    r.translateForward (r.translateReverse q) = q := by
  obtain ⟨w, s, nt, rfl, hlen, hperm⟩ := h
  exact translateForward_translateReverse w s nt hperm q h0 (by rw [hlen]; exact hq)

/-! ### The forward and reverse rotor passes of `Machine.translatePin` -/

theorem foldl_tf_mem (N : Nat) (hN : 0 < N) (rs : List Rotor)
    (hwf : ∀ r ∈ rs, RotorWF N r) (p : Int) (h0 : 0 ≤ p) (hp : p < (N : Int)) :
    0 ≤ rs.foldl (fun q r => r.translateForward q) p ∧
      rs.foldl (fun q r => r.translateForward q) p < (N : Int) := by
  induction rs generalizing p with
  | nil => exact ⟨h0, hp⟩
  | cons r t ih =>
    have hr := (hwf r (List.mem_cons_self r t)).tf_mem hN p
    exact ih (fun x hx => hwf x (List.mem_cons_of_mem r hx)) _ hr.1 hr.2

theorem foldl_tr_mem (N : Nat) (hN : 0 < N) (rs : List Rotor)
    (hwf : ∀ r ∈ rs, RotorWF N r) (p : Int) (h0 : 0 ≤ p) (hp : p < (N : Int)) :
    0 ≤ rs.foldl (fun q r => r.translateReverse q) p ∧
      rs.foldl (fun q r => r.translateReverse q) p < (N : Int) := by
  induction rs generalizing p with
  | nil => exact ⟨h0, hp⟩
  | cons r t ih =>
    have hr := (hwf r (List.mem_cons_self r t)).tr_mem hN p
    exact ih (fun x hx => hwf x (List.mem_cons_of_mem r hx)) _ hr.1 hr.2

/-- The reverse pass (over the reversed rotor list) undoes the forward
pass, pin for pin. -/
theorem foldl_tr_foldl_tf (N : Nat) (hN : 0 < N) (rs : List Rotor)
    (hwf : ∀ r ∈ rs, RotorWF N r) (p : Int) (h0 : 0 ≤ p) (hp : p < (N : Int)) :
    rs.reverse.foldl (fun q r => r.translateReverse q)
      (rs.foldl (fun q r => r.translateForward q) p) = p := by
  induction rs generalizing p with
  | nil => rfl
  | cons r t ih =>
    have hr : RotorWF N r := hwf r (List.mem_cons_self r t)
    have ht : ∀ x ∈ t, RotorWF N x := fun x hx => hwf x (List.mem_cons_of_mem r hx)
    have hb := hr.tf_mem hN p
    simp only [List.reverse_cons, List.foldl_cons, List.foldl_append, List.foldl_cons,
      List.foldl_nil]
    rw [ih ht _ hb.1 hb.2]
    exact hr.tr_tf p h0 hp

/-- The forward pass undoes the reverse pass, pin for pin. -/
theorem foldl_tf_foldl_tr (N : Nat) (hN : 0 < N) (rs : List Rotor)
    (hwf : ∀ r ∈ rs, RotorWF N r) (q : Int) (h0 : 0 ≤ q) (hq : q < (N : Int)) :
    rs.foldl (fun x r => r.translateForward x)
      (rs.reverse.foldl (fun x r => r.translateReverse x) q) = q := by
  induction rs generalizing q with
  | nil => rfl
  | cons r t ih =>
    have hr : RotorWF N r := hwf r (List.mem_cons_self r t)
    have ht : ∀ x ∈ t, RotorWF N x := fun x hx => hwf x (List.mem_cons_of_mem r hx)
    have hb := foldl_tr_mem N hN t.reverse
      (fun x hx => ht x (List.mem_reverse.mp hx)) q h0 hq
    simp only [List.reverse_cons, List.foldl_append, List.foldl_cons, List.foldl_nil]
    rw [hr.tf_tr _ hb.1 hb.2]
    exact ih ht q h0 hq

/-- An involutive wiring table (the property every reflector wiring in the
catalogue satisfies, checked by `rotors.main`). -/
@[reducible] def InvolutiveWiring (w : List Nat) : Prop :=
  0 < w.length ∧ (∀ x ∈ w, x < w.length) ∧
    ∀ i, i < w.length → w.getD (w.getD i 0) 0 = i

/-- A rotor built from an involutive wiring translates forward
involutively, at any offset. -/
theorem translateForward_involutive (w : List Nat) (s : Int) (nt : List Int)
    (hw : InvolutiveWiring w) (q : Int) (h0 : 0 ≤ q) (hq : q < (w.length : Int)) :
    (mkRotor w s nt).translateForward ((mkRotor w s nt).translateForward q) = q := by
  obtain ⟨hlen, hb, hinv⟩ := hw
  have hNpos : (0 : Int) < (w.length : Int) := by exact_mod_cast hlen
  have hi0 : 0 ≤ (q + s) % (w.length : Int) := Int.emod_nonneg _ (by omega)
  have hiN : (q + s) % (w.length : Int) < (w.length : Int) := Int.emod_lt_of_pos _ hNpos
  have hiNat : ((q + s) % (w.length : Int)).toNat < w.length := by omega
  rw [translateForward_mkRotor w s nt hlen q, translateForward_mkRotor w s nt hlen]
  have hwb : w.getD ((q + s) % (w.length : Int)).toNat 0 < w.length :=
    getD_lt_of_lt w hb _ hiNat
  have hstep : (((w.getD ((q + s) % (w.length : Int)).toNat 0 : Int) - s)
        % (w.length : Int) + s) % (w.length : Int)
      = (w.getD ((q + s) % (w.length : Int)).toNat 0 : Int) := by
    rw [Int.emod_add_emod, sub_add_cancel]
    exact Int.emod_eq_of_lt (Int.natCast_nonneg _) (by exact_mod_cast hwb)
  rw [hstep]
  rw [show ((w.getD ((q + s) % (w.length : Int)).toNat 0 : Nat) : Int).toNat
      = w.getD ((q + s) % (w.length : Int)).toNat 0 by omega]
  rw [hinv _ hiNat]
  rw [show ((((q + s) % (w.length : Int)).toNat : Nat) : Int)
      = (q + s) % (w.length : Int) by omega]
  rw [sub_eq_add_neg, Int.emod_add_emod, ← sub_eq_add_neg, add_sub_cancel_right]
  exact Int.emod_eq_of_lt h0 hq

/-! ### The plugboard -/

/-- Python `Machine._initPlugboard`: start from the identity matrix
`list(range(size))` and swap the entries of each pair in the stack.  The
pair letters have already been converted to alphabet indices
(`_abet.index`), as the Python code does. -/
def initPlugboard (size : Nat) (stack : List (Nat × Nat)) : List Nat :=
  stack.foldl (fun pb pair => (pb.set pair.1 pair.2).set pair.2 pair.1)
    (List.range size)

/-- A single plugboard lookup (`self.plugboard[pin]`), on pins. -/
def pbApply (pb : List Nat) (p : Int) : Int :=
  ((pb.getD p.toNat 0 : Nat) : Int)

/-- The symbols mentioned by a plugboard pair stack. -/
def stackSyms (stack : List (Nat × Nat)) : List Nat :=
  stack.flatMap (fun pr => [pr.1, pr.2])

/-- A well-formed pair stack: every symbol is in the alphabet and appears
in at most one pair (the pairs are disjoint and non-degenerate). -/
@[reducible] def ValidStack (size : Nat) (stack : List (Nat × Nat)) : Prop :=
  (stackSyms stack).Nodup ∧ ∀ a ∈ stackSyms stack, a < size

theorem getD_set_self (l : List Nat) (i v : Nat) (h : i < l.length) :
    (l.set i v).getD i 0 = v := by
  rw [List.getD_eq_getElem?_getD, List.getElem?_set_self h]
  rfl

theorem getD_set_ne (l : List Nat) {i j : Nat} (v : Nat) (h : i ≠ j) :
    (l.set i v).getD j 0 = l.getD j 0 := by
  rw [List.getD_eq_getElem?_getD, List.getElem?_set_ne h, ← List.getD_eq_getElem?_getD]

/-- Invariant of the plugboard-building fold: starting from any involutive
matrix which is the identity on every symbol still to be paired, the fold
yields an involutive matrix, touching only the paired symbols. -/
theorem plugboard_fold_spec (size : Nat) (stack : List (Nat × Nat)) :
    ∀ pb : List Nat, pb.length = size →
    (∀ p, p < size → pb.getD p 0 < size) →
    (∀ p, p < size → pb.getD (pb.getD p 0) 0 = p) →
    (∀ a ∈ stackSyms stack, pb.getD a 0 = a) →
    (stackSyms stack).Nodup →
    (∀ a ∈ stackSyms stack, a < size) →
    (stack.foldl (fun pb pair => (pb.set pair.1 pair.2).set pair.2 pair.1) pb).length = size ∧
    (∀ p, p < size →
      (stack.foldl (fun pb pair => (pb.set pair.1 pair.2).set pair.2 pair.1) pb).getD p 0 < size) ∧
    (∀ p, p < size →
      (stack.foldl (fun pb pair => (pb.set pair.1 pair.2).set pair.2 pair.1) pb).getD
        ((stack.foldl (fun pb pair => (pb.set pair.1 pair.2).set pair.2 pair.1) pb).getD p 0) 0 = p) ∧
    (∀ p, p < size → p ∉ stackSyms stack →
      (stack.foldl (fun pb pair => (pb.set pair.1 pair.2).set pair.2 pair.1) pb).getD p 0
        = pb.getD p 0) := by
  induction stack with
  | nil => exact fun pb h1 h2 h3 _ _ _ => ⟨h1, h2, h3, fun p _ _ => rfl⟩
  | cons pr t ih =>
    rintro pb hlen hbound hinv hfix hnd hsb
    obtain ⟨x, y⟩ := pr
    have hsyms : stackSyms (⟨x, y⟩ :: t) = x :: y :: stackSyms t := rfl
    rw [hsyms] at hfix hnd hsb
    have hxy : x ≠ y := by
      intro h
      subst h
      exact (List.nodup_cons.mp hnd).1 (List.mem_cons_self _ _)
    have hxt : x ∉ stackSyms t := fun h =>
      (List.nodup_cons.mp hnd).1 (List.mem_cons_of_mem _ h)
    have hyt : y ∉ stackSyms t := ((List.nodup_cons.mp (List.nodup_cons.mp hnd).2)).1
    have hndt : (stackSyms t).Nodup := (List.nodup_cons.mp (List.nodup_cons.mp hnd).2).2
    have hx : x < size := hsb x (List.mem_cons_self _ _)
    have hy : y < size := hsb y (List.mem_cons_of_mem _ (List.mem_cons_self _ _))
    have hpbx : pb.getD x 0 = x := hfix x (List.mem_cons_self _ _)
    have hpby : pb.getD y 0 = y := hfix y (List.mem_cons_of_mem _ (List.mem_cons_self _ _))
    set pb2 := (pb.set x y).set y x with hpb2
    have hlen2 : pb2.length = size := by
      rw [hpb2, List.length_set, List.length_set, hlen]
    have hgy : pb2.getD y 0 = x := by
      rw [hpb2]
      exact getD_set_self _ y x (by rw [List.length_set, hlen]; exact hy)
    have hgx : pb2.getD x 0 = y := by
      rw [hpb2, getD_set_ne _ _ (fun h => hxy h.symm)]
      exact getD_set_self _ x y (by rw [hlen]; exact hx)
    have hgother : ∀ p, p ≠ x → p ≠ y → pb2.getD p 0 = pb.getD p 0 := by
      intro p hpx hpy
      rw [hpb2, getD_set_ne _ _ (fun h => hpy h.symm), getD_set_ne _ _ (fun h => hpx h.symm)]
    have hbound2 : ∀ p, p < size → pb2.getD p 0 < size := by
      intro p hp
      rcases em (p = x) with rfl | hpx
      · rw [hgx]; exact hy
      rcases em (p = y) with rfl | hpy
      · rw [hgy]; exact hx
      · rw [hgother p hpx hpy]; exact hbound p hp
    have hinv2 : ∀ p, p < size → pb2.getD (pb2.getD p 0) 0 = p := by
      intro p hp
      rcases em (p = x) with rfl | hpx
      · rw [hgx, hgy]
      rcases em (p = y) with rfl | hpy
      · rw [hgy, hgx]
      · rw [hgother p hpx hpy]
        have hvx : pb.getD p 0 ≠ x := by
          intro h
          apply hpx
          have hq := hinv p hp
          rw [h, hpbx] at hq
          exact hq.symm
        have hvy : pb.getD p 0 ≠ y := by
          intro h
          apply hpy
          have hq := hinv p hp
          rw [h, hpby] at hq
          exact hq.symm
        rw [hgother _ hvx hvy]
        exact hinv p hp
    have hfix2 : ∀ a ∈ stackSyms t, pb2.getD a 0 = a := by
      intro a ha
      rw [hgother a (fun h => hxt (h ▸ ha)) (fun h => hyt (h ▸ ha))]
      exact hfix a (List.mem_cons_of_mem _ (List.mem_cons_of_mem _ ha))
    have hsb2 : ∀ a ∈ stackSyms t, a < size :=
      fun a ha => hsb a (List.mem_cons_of_mem _ (List.mem_cons_of_mem _ ha))
    have hmain := ih pb2 hlen2 hbound2 hinv2 hfix2 hndt hsb2
    refine ⟨hmain.1, hmain.2.1, hmain.2.2.1, ?_⟩
    intro p hp hpmem
    have hpx : p ≠ x := fun h => hpmem (h ▸ List.mem_cons_self _ _)
    have hpy : p ≠ y := fun h =>
      hpmem (h ▸ List.mem_cons_of_mem _ (List.mem_cons_self _ _))
    have hpt : p ∉ stackSyms t := fun h =>
      hpmem (List.mem_cons_of_mem _ (List.mem_cons_of_mem _ h))
    rw [List.foldl_cons]
    rw [hmain.2.2.2 p hp hpt]
    exact hgother p hpx hpy

/-- The plugboard built by `_initPlugboard` from a valid pair stack: it is
a bounded involution that fixes every unpaired symbol. -/
theorem initPlugboard_spec (size : Nat) (stack : List (Nat × Nat))
    (hv : ValidStack size stack) :
    (initPlugboard size stack).length = size ∧
    (∀ p, p < size → (initPlugboard size stack).getD p 0 < size) ∧
    (∀ p, p < size →
      (initPlugboard size stack).getD ((initPlugboard size stack).getD p 0) 0 = p) ∧
    (∀ p, p < size → p ∉ stackSyms stack → (initPlugboard size stack).getD p 0 = p) := by
  have hid : ∀ p, p < size → (List.range size).getD p 0 = p := by
    intro p hp
    rw [List.getD_eq_getElem _ 0 (by simpa using hp)]
    exact List.getElem_range _ _
  have h := plugboard_fold_spec size stack (List.range size) (List.length_range size)
    (fun p hp => by rw [hid p hp]; exact hp)
    (fun p hp => by rw [hid p hp, hid p hp])
    (fun a ha => hid a (hv.2 a ha)) hv.1 hv.2
  refine ⟨h.1, h.2.1, h.2.2.1, fun p hp hm => ?_⟩
  unfold initPlugboard
  rw [h.2.2.2 p hp hm]
  exact hid p hp

/-! ### The machine -/

/-- Python `machine.Mode`. -/
inductive Mode where
  | classic : Mode
  | modern : Mode
  | byte : Mode
deriving Repr, DecidableEq

/-- The `Machine` object: its mode and the mutable cipher state
(`self.plugboard`, `self.rotors`, `self.reflector`, and the break-point
snapshot `self._breakstate`, absent until `breakSet` runs).  The verbosity
flag, which only controls stderr logging, is not modelled. -/
structure Machine where
  mode : Mode
  plugboard : List Nat
  rotors : List Rotor
  reflector : Rotor
  breakstate : Option (List Nat × List Rotor × Rotor)
deriving Repr, DecidableEq

/-- Python `Machine.stateGet`: the serialized state is the pickled triple
`(plugboard, rotors, reflector)`; the model keeps the triple itself, as
byte-level pickling is invertible and otherwise opaque. -/
def Machine.stateGet (m : Machine) : List Nat × List Rotor × Rotor :=
  (m.plugboard, m.rotors, m.reflector)

/-- Python `Machine.stateSet`: restore the three serialized components (the mode
and break snapshot are not part of the serialized state). -/
def Machine.stateSet (m : Machine) (st : List Nat × List Rotor × Rotor) : Machine :=
  { m with plugboard := st.1, rotors := st.2.1, reflector := st.2.2 }

/-- Python `Machine.breakSet`: save the current state for later return. -/
def Machine.breakSet (m : Machine) : Machine :=
  { m with breakstate := some m.stateGet }

/-- Python `Machine.breakGo`: return to the saved break state; the Python method
asserts that a break state exists, so the model yields `none` when the
assertion would fail. -/
def Machine.breakGo (m : Machine) : Option Machine :=
  m.breakstate.map m.stateSet

/-- Python `Machine.stepRotors`:
`step = True; for rotor in rotors: if step: step = rotor.step();
 if not step: break` — each rotor steps only while every earlier rotor
stepped and reported a notch; the rest of the stack is left untouched. -/
def stepRotors : List Rotor → List Rotor
  | [] => []
  | r :: rs =>
    let s := r.step
    s.1 :: (if s.2 then stepRotors rs else rs)

/-- Python `Machine.translatePin`: plugboard, rotors forward in order, reflector,
rotors backward in reverse order, plugboard again, and only then step the
rotor stack.  Input pins are non-negative in every call site, so the
plugboard list lookup is an ordinary (non-wrapping) index. -/
def Machine.translatePin (m : Machine) (pin : Int) : Int × Machine :=
  let pin1 := pbApply m.plugboard pin
  let pin2 := m.rotors.foldl (fun p r => r.translateForward p) pin1
  let pin3 := m.reflector.translateForward pin2
  let pin4 := m.rotors.reverse.foldl (fun p r => r.translateReverse p) pin3
  let pin5 := pbApply m.plugboard pin4
  (pin5, { m with rotors := stepRotors m.rotors })

/-- The signal path exactly as §4.5 of the specification words it:
plugboard → each rotor `translateForward` in entry order → reflector →
each rotor `translateReverse` in reverse order → plugboard, computed
entirely from the machine state as it is at the start of the call. -/
def specSignalPath (m : Machine) (pin : Int) : Int :=
  pbApply m.plugboard
    (m.rotors.reverse.foldl (fun p r => r.translateReverse p)
      (m.reflector.translateForward
        (m.rotors.foldl (fun p r => r.translateForward p)
          (pbApply m.plugboard pin))))

/-- Python `Machine._checkByte`: keep `A`–`Z`, capitalize `a`–`z`, reject the
rest (the Python code returns `False`, modelled as `none`). -/
def checkByte (b : Nat) : Option Nat :=
  if 65 ≤ b ∧ b ≤ 90 then some b
  else if 97 ≤ b ∧ b ≤ 122 then some (b - 32)
  else none

/-- Python `Machine.translateChunk` on a list of byte values.  The mode is tested
per symbol here; the Python tests it once for the whole chunk, which is
equivalent because no operation ever changes `self.mode`. -/
def Machine.translateChunk (m : Machine) : List Nat → Machine × List Nat
  | [] => (m, [])
  | b :: rest =>
    if m.mode = Mode.byte then
      let r := m.translatePin (b : Int)
      let t := r.2.translateChunk rest
      (t.1, r.1.toNat :: t.2)
    else
      match checkByte b with
      | none =>
        let t := m.translateChunk rest
        if m.mode = Mode.modern then (t.1, b :: t.2) else t
      | some c =>
        let r := m.translatePin ((c : Int) - 65)
        let out0 := r.1 + 65
        let out1 := if m.mode = Mode.modern ∧ 90 < b then out0 + 32 else out0
        let t := r.2.translateChunk rest
        (t.1, out1.toNat :: t.2)

/-- Python `Machine._readChunks`: `stream.read(chunkSize)` yields the next
`chunkSize` symbols; an empty read (`if not data: break`) ends the
stream.  With `chunkSize = 0` every read is empty and no chunk is
yielded. -/
def chunksOf (n : Nat) (l : List Nat) : List (List Nat) :=
  if h : l.take n = [] then []
  else l.take n :: chunksOf n (l.drop n)
termination_by l.length
decreasing_by
  simp_wf
  rw [List.take_eq_nil_iff] at h
  push_neg at h
  exact ⟨List.length_pos.mpr h.2, Nat.pos_of_ne_zero h.1⟩

/-- The chunk loop of `Machine.translateStream`: translate each chunk,
append it to the output stream, add `chunkSize` to `stream_out_size`, and
record the progress-callback invocation `(stream_out_size,
stream_in_size)` made after the chunk. -/
def streamLoop (chunkSize total : Nat) :
    Machine → Nat → List (List Nat) → Machine × List Nat × List (Nat × Nat)
  | m, _, [] => (m, [], [])
  | m, outSize, c :: rest =>
    let r := m.translateChunk c
    let t := streamLoop chunkSize total r.1 (outSize + chunkSize) rest
    (t.1, r.2 ++ t.2.1, (outSize + chunkSize, total) :: t.2.2)

/-- Python `Machine.translateStream` over an in-memory input stream: the final
machine, the output stream, and the list of arguments passed to the
progress callback, in call order — the initial `(0, stream_in_size)` call
followed by one call per chunk. -/
def Machine.translateStream (m : Machine) (input : List Nat) (chunkSize : Nat) :
    Machine × List Nat × List (Nat × Nat) :=
  let t := streamLoop chunkSize input.length m 0 (chunksOf chunkSize input)
  (t.1, t.2.1, (0, input.length) :: t.2.2)

/-- Python `Machine.__init__` from explicit components: build the plugboard from
the pair stack (a 256-entry table in byte mode, 26 otherwise), take over
the rotor and reflector objects, and set the initial break point.  The
catalogue defines no byte-compatible rotors, so the byte-compatibility
checks can never fire and are not modelled. -/
def mkMachine (mode : Mode) (plugboardStack : List (Nat × Nat))
    (rotorStack : List Rotor) (reflector : Rotor) : Machine :=
  Machine.breakSet
    { mode := mode
      plugboard := initPlugboard (if mode = Mode.byte then 256 else 26) plugboardStack
      rotors := rotorStack
      reflector := reflector
      breakstate := none }

/-! ### Catalogue wirings (alphabet indices of the wiring strings in
`rotors.py`) -/

/-- Enigma I - Rotor I (`EKMFLGDQVZNTOWYHXUSPAIBRCJ`), notch `Y = 24`. -/
def wRotorI : List Nat :=
  [4, 10, 12, 5, 11, 6, 3, 16, 21, 25, 13, 19, 14, 22, 24, 7, 23, 20, 18, 15, 0, 8, 1, 17, 2, 9]

/-- Enigma I - Rotor II (`AJDKSIRUXBLHWTMCQGZNPYFVOE`), notch `M = 12`. -/
def wRotorII : List Nat :=
  [0, 9, 3, 10, 18, 8, 17, 20, 23, 1, 11, 7, 22, 19, 12, 2, 16, 6, 25, 13, 15, 24, 5, 21, 14, 4]

/-- Enigma I - Rotor III (`BDFHJLCPRTXVZNYEIWGAKMUSQO`), notch `D = 3`. -/
def wRotorIII : List Nat :=
  [1, 3, 5, 7, 9, 11, 2, 15, 17, 19, 23, 21, 25, 13, 24, 4, 8, 22, 6, 0, 10, 12, 20, 18, 16, 14]

/-- Enigma I - Reflector A (`EJMZALYXVBWFCRQUONTSPIKHGD`). -/
def wUKW_A : List Nat :=
  [4, 9, 12, 25, 0, 11, 24, 23, 21, 1, 22, 5, 2, 17, 16, 20, 14, 13, 19, 18, 15, 8, 10, 7, 6, 3]

/-- Enigma I / M3 - Reflector B (`YRUHQSLDPXNGOKMIEBFZCWVJAT`). -/
def wUKW_B : List Nat :=
  [24, 17, 20, 7, 16, 18, 11, 3, 15, 23, 13, 6, 14, 10, 12, 8, 4, 1, 5, 25, 2, 22, 21, 9, 0, 19]

/-- Enigma I / M3 - Reflector C (`FVPJIAOYEDRZXWGCTKUQSBNMHL`). -/
def wUKW_C : List Nat :=
  [5, 21, 15, 9, 8, 0, 14, 24, 4, 3, 17, 25, 23, 22, 6, 2, 19, 10, 20, 16, 18, 1, 13, 12, 7, 11]

/-- Norway Enigma - Reflector (`MOWJYPUXNDSRAIBFVLKZGQCHET`). -/
def wNorwayUKW : List Nat :=
  [12, 14, 22, 9, 24, 15, 20, 23, 13, 3, 18, 17, 0, 8, 1, 5, 21, 11, 10, 25, 6, 16, 2, 7, 4, 19]

/-- Enigma M4 - Reflector B Thin (`ENKQAUYWJICOPBLMDXZVFTHRGS`). -/
def wUKW_BThin : List Nat :=
  [4, 13, 10, 16, 0, 20, 24, 22, 9, 8, 2, 14, 15, 1, 11, 12, 3, 23, 25, 21, 5, 19, 7, 17, 6, 18]

/-- Enigma M4 - Reflector C Thin (`RDOBJNTKVEHMLFCWZAXGYIPSUQ`). -/
def wUKW_CThin : List Nat :=
  [17, 3, 14, 1, 9, 13, 19, 10, 21, 4, 7, 12, 11, 5, 2, 22, 25, 0, 23, 6, 24, 8, 15, 18, 20, 16]

/-- Enigma G / G260 / G111 / D / K / Swiss-K - Reflector
(`IMETCGFRAYSQBZXWLHKDVUPOJN`), a single wiring shared by six catalogue
entries. -/
def wUKW_G : List Nat :=
  [8, 12, 4, 19, 2, 6, 5, 17, 0, 24, 18, 16, 1, 25, 23, 22, 11, 7, 10, 3, 21, 20, 15, 14, 9, 13]

/-- Enigma G312 - Reflector (`RULQMZJSYGOCETKWDAHNBXPVIF`). -/
def wUKW_G312 : List Nat :=
  [17, 20, 11, 16, 12, 25, 9, 18, 24, 6, 14, 2, 4, 19, 10, 22, 3, 0, 7, 13, 1, 23, 15, 21, 8, 5]

/-- Enigma KD - Reflector (`NSUOMKLIHZFGEADVXWBYCPRQTJ`). -/
def wUKW_KD : List Nat :=
  [13, 18, 20, 14, 12, 10, 11, 8, 7, 25, 5, 6, 4, 0, 3, 21, 23, 22, 1, 24, 2, 15, 17, 16, 19, 9]

/-- Railway Enigma - Reflector (`QYHOGNECVPUZTFDJAXWMKISRBL`). -/
def wUKW_Rail : List Nat :=
  [16, 24, 7, 14, 6, 13, 4, 2, 21, 15, 20, 25, 19, 5, 3, 9, 0, 23, 22, 12, 10, 8, 18, 17, 1, 11]

/-- Enigma T - Reflector (`GEKPBTAUMOCNILJDXZYFHWVQSR`). -/
def wUKW_T : List Nat :=
  [6, 4, 10, 15, 1, 19, 0, 20, 12, 14, 2, 13, 8, 11, 9, 3, 23, 25, 24, 5, 7, 22, 21, 16, 18, 17]

/-- Every reflector wiring defined in the `rotors.py` catalogue (the 18
`_ReflectorBase` subclasses; six of them share `wUKW_G`, and reflectors B
and C each appear under both their Enigma I and M3 names). -/
def reflectorCatalogue : List (List Nat) :=
  [wUKW_A, wUKW_B, wUKW_C, wNorwayUKW, wUKW_B, wUKW_C, wUKW_BThin, wUKW_CThin,
   wUKW_G, wUKW_G312, wUKW_G, wUKW_G, wUKW_G, wUKW_G, wUKW_G, wUKW_KD, wUKW_Rail,
   wUKW_T]

/-- A reflector as instantiated by `stringToReflector`: `reflector()` uses
the default setting (`None`, hence offset `0`) and the default notch list
inherited from `_RotorBase` (`'A'`, hence `[0]`). -/
def mkReflector (w : List Nat) : Rotor :=
  mkRotor w 0 [0]

/-- Normalization at the fixed alphabet size 26. -/
theorem loop26 (n : Int) : loop 26 n = n % 26 :=
  loop_emod 26 (by omega) n

/-- C10: for alphabet size `≥ 1`, the `_loop` normalization terminates
(it is a total function in this model) and returns the remainder, a value
inside `[0, size)`, for every integer input; a rotor whose offset is in
`[0, size)` keeps its offset in `[0, size)` when it steps.  The translate
operations never assign the offset, which the model reflects by leaving
the rotor value untouched. -/
theorem c10_offset_invariant :
    (∀ (size : Nat) (n : Int), 0 < size →
      loop size n = n % (size : Int) ∧ 0 ≤ loop size n ∧ loop size n < (size : Int)) ∧
    (∀ r : Rotor, 0 < r.wiringSize →
      0 ≤ r.setting → r.setting < (r.wiringSize : Int) →
      0 ≤ (r.step).1.setting ∧ (r.step).1.setting < ((r.step).1.wiringSize : Int)) := by
  constructor
  · intro size n hs
    exact ⟨loop_emod size hs n, (loop_mem size hs n).1, (loop_mem size hs n).2⟩
  · intro r hs _ _
    exact loop_mem r.wiringSize hs (r.setting + 1)

theorem c10_offset_invariant_witness :
    ((0 < 26) ∧
      (loop 26 (-3) = (-3 : Int) % 26 ∧ 0 ≤ loop 26 (-3) ∧ loop 26 (-3) < 26)) ∧
    ((0 < (mkRotor wRotorI 0 [24]).wiringSize ∧
        0 ≤ (mkRotor wRotorI 0 [24]).setting ∧
        (mkRotor wRotorI 0 [24]).setting < ((mkRotor wRotorI 0 [24]).wiringSize : Int)) ∧
      (0 ≤ ((mkRotor wRotorI 0 [24]).step).1.setting ∧
        ((mkRotor wRotorI 0 [24]).step).1.setting
          < (((mkRotor wRotorI 0 [24]).step).1.wiringSize : Int))) :=
  ⟨⟨by decide, c10_offset_invariant.1 26 (-3) (by decide)⟩,
   ⟨⟨by decide, by decide, by decide⟩,
    c10_offset_invariant.2 (mkRotor wRotorI 0 [24]) (by decide) (by decide) (by decide)⟩⟩

/-- C6: every reflector defined in the rotor catalogue translates
involutively at its fixed zero offset: `tf (tf p) = p` for every alphabet
pin `p`. -/
theorem c6_reflector_involution :
    ∀ w ∈ reflectorCatalogue, ∀ p : Int, 0 ≤ p → p < 26 →
      (mkReflector w).translateForward ((mkReflector w).translateForward p) = p := by
  have hfacts : ∀ w ∈ reflectorCatalogue, w.length = 26 ∧ InvolutiveWiring w := by decide
  intro w hw p h0 hp
  obtain ⟨hlen, hinv⟩ := hfacts w hw
  exact translateForward_involutive w 0 [0] hinv p h0 (by rw [hlen]; exact_mod_cast hp)

theorem c6_reflector_involution_witness :
    (wUKW_B ∈ reflectorCatalogue ∧ (0 : Int) ≤ 5 ∧ (5 : Int) < 26) ∧
    (mkReflector wUKW_B).translateForward ((mkReflector wUKW_B).translateForward 5) = 5 :=
  ⟨⟨by decide, by decide, by decide⟩,
   c6_reflector_involution wUKW_B (by decide) 5 (by decide) (by decide)⟩

/-- C5: a rotor built from a permutation wiring translates forward
injectively on alphabet pins at any fixed offset, and `translateReverse`
is its exact inverse there. -/
theorem c5_rotor_bijection (w : List Nat) (s : Int) (nt : List Int)
    (hp : PermWiring w) :
    (∀ p q : Int, 0 ≤ p → p < (w.length : Int) → 0 ≤ q → q < (w.length : Int) →
      (mkRotor w s nt).translateForward p = (mkRotor w s nt).translateForward q →
      p = q) ∧
    (∀ p : Int, 0 ≤ p → p < (w.length : Int) →
      (mkRotor w s nt).translateReverse ((mkRotor w s nt).translateForward p) = p) := by
  constructor
  · intro p q hp0 hpN hq0 hqN heq
    have h1 := translateReverse_translateForward w s nt hp p hp0 hpN
    have h2 := translateReverse_translateForward w s nt hp q hq0 hqN
    rw [← h1, ← h2, heq]
  · exact fun p h0 hN => translateReverse_translateForward w s nt hp p h0 hN

theorem c5_rotor_bijection_witness :
    PermWiring wRotorI ∧
    (mkRotor wRotorI 3 [24]).translateReverse
      ((mkRotor wRotorI 3 [24]).translateForward 7) = 7 :=
  ⟨by decide,
   (c5_rotor_bijection wRotorI 3 [24] (by decide)).2 7 (by decide) (by decide)⟩

/-- C7: the plugboard built by `Machine._initPlugboard` from disjoint
two-symbol pairs satisfies `apply (apply p) = p` for every alphabet pin,
and maps every unpaired pin to itself. -/
theorem c7_plugboard_involution (size : Nat) (stack : List (Nat × Nat))
    (hv : ValidStack size stack) :
    (∀ p, p < size →
      (initPlugboard size stack).getD ((initPlugboard size stack).getD p 0) 0 = p) ∧
    (∀ p, p < size → p ∉ stackSyms stack →
      (initPlugboard size stack).getD p 0 = p) := by
  have h := initPlugboard_spec size stack hv
  exact ⟨h.2.2.1, h.2.2.2⟩

theorem c7_plugboard_involution_witness :
    ValidStack 26 [(0, 1), (2, 3)] ∧
    (∀ p, p < 26 →
      (initPlugboard 26 [(0, 1), (2, 3)]).getD
        ((initPlugboard 26 [(0, 1), (2, 3)]).getD p 0) 0 = p) :=
  ⟨by decide, (c7_plugboard_involution 26 [(0, 1), (2, 3)] (by decide)).1⟩

/-- One `stepRotors` pass, index by index: rotor `i` advances exactly when
every rotor before it sat on a notch before the pass. -/
theorem stepRotors_getD (rs : List Rotor) (i : Nat) (hi : i < rs.length) :
    (stepRotors rs).getD i default =
      if ∀ j, j < i → (rs.getD j default).setting ∈ (rs.getD j default).notches
      then ((rs.getD i default).step).1
      else rs.getD i default := by
  induction rs generalizing i with
  | nil => simp at hi
  | cons r t ih =>
    match i with
    | 0 =>
      rw [if_pos (fun j hj => absurd hj (Nat.not_lt_zero j))]
      rfl
    | i + 1 =>
      have hit : i < t.length := by simpa using hi
      by_cases hr : r.setting ∈ r.notches
      · have hstep : (r.step).2 = true := by simp [Rotor.step, hr]
        have hl : (stepRotors (r :: t)).getD (i + 1) default
            = (stepRotors t).getD i default := by
          simp [stepRotors, hstep]
        rw [hl, ih i hit]
        have hiff : (∀ j, j < i →
              (t.getD j default).setting ∈ (t.getD j default).notches) ↔
            (∀ j, j < i + 1 →
              ((r :: t).getD j default).setting ∈ ((r :: t).getD j default).notches) := by
          constructor
          · intro hc j hj
            match j with
            | 0 => simpa [List.getD_cons_zero] using hr
            | j + 1 => simpa [List.getD_cons_succ] using hc j (by omega)
          · intro hc j hj
            simpa [List.getD_cons_succ] using hc (j + 1) (by omega)
        by_cases hcond : ∀ j, j < i →
            (t.getD j default).setting ∈ (t.getD j default).notches
        · rw [if_pos hcond, if_pos (hiff.mp hcond)]
          simp [List.getD_cons_succ]
        · rw [if_neg hcond, if_neg (fun hcc => hcond (hiff.mpr hcc))]
          simp [List.getD_cons_succ]
      · have hstep : (r.step).2 = false := by simp [Rotor.step, hr]
        have hl : (stepRotors (r :: t)).getD (i + 1) default = t.getD i default := by
          simp [stepRotors, hstep]
        rw [hl, if_neg (fun hcc => hr (by simpa [List.getD_cons_zero] using hcc 0 (by omega)))]
        simp [List.getD_cons_succ]

/-- C3: one `stepRotors` call steps rotor 0 unconditionally and steps
rotor `i + 1` exactly when rotors `0 .. i` all sat on their notches; in
particular a rotor one step short of its notch advances alone on the
first call, and on the second call advances again while also stepping its
neighbour. -/
theorem c3_stepping_carry :
    (∀ (rs : List Rotor) (i : Nat), i < rs.length →
      (stepRotors rs).getD i default =
        if ∀ j, j < i → (rs.getD j default).setting ∈ (rs.getD j default).notches
        then ((rs.getD i default).step).1
        else rs.getD i default) ∧
    (∀ (r0 r1 : Rotor) (t : List Rotor),
      r0.setting ∉ r0.notches → ((r0.step).1).setting ∈ r0.notches →
      stepRotors (r0 :: r1 :: t) = (r0.step).1 :: r1 :: t ∧
      (stepRotors (stepRotors (r0 :: r1 :: t))).getD 0 default = (((r0.step).1).step).1 ∧
      (stepRotors (stepRotors (r0 :: r1 :: t))).getD 1 default = (r1.step).1) := by
  refine ⟨stepRotors_getD, ?_⟩
  intro r0 r1 t h0 h1
  have hs0 : (r0.step).2 = false := by simp [Rotor.step, h0]
  have e1 : stepRotors (r0 :: r1 :: t) = (r0.step).1 :: r1 :: t := by
    simp [stepRotors, hs0]
  have hs1 : (((r0.step).1).step).2 = true := by
    have hd : (((r0.step).1).step).2
        = decide (((r0.step).1).setting ∈ ((r0.step).1).notches) := rfl
    have hn : ((r0.step).1).notches = r0.notches := rfl
    rw [hd, hn]
    simpa using h1
  have e2 : stepRotors ((r0.step).1 :: r1 :: t)
      = (((r0.step).1).step).1 :: stepRotors (r1 :: t) := by
    simp [stepRotors, hs1]
  refine ⟨e1, ?_, ?_⟩
  · rw [e1, e2]
    rfl
  · rw [e1, e2]
    show (stepRotors (r1 :: t)).getD 0 default = (r1.step).1
    rfl

theorem c3_stepping_carry_witness :
    ((mkRotor wRotorI 23 [24]).setting ∉ (mkRotor wRotorI 23 [24]).notches ∧
      (((mkRotor wRotorI 23 [24]).step).1).setting ∈ (mkRotor wRotorI 23 [24]).notches) ∧
    (stepRotors
        (mkRotor wRotorI 23 [24] :: mkRotor wRotorII 0 [12] :: [mkRotor wRotorIII 0 [3]])
        = ((mkRotor wRotorI 23 [24]).step).1
            :: mkRotor wRotorII 0 [12] :: [mkRotor wRotorIII 0 [3]] ∧
      (stepRotors (stepRotors
          (mkRotor wRotorI 23 [24] :: mkRotor wRotorII 0 [12]
            :: [mkRotor wRotorIII 0 [3]]))).getD 0 default
        = ((((mkRotor wRotorI 23 [24]).step).1).step).1 ∧
      (stepRotors (stepRotors
          (mkRotor wRotorI 23 [24] :: mkRotor wRotorII 0 [12]
            :: [mkRotor wRotorIII 0 [3]]))).getD 1 default
        = ((mkRotor wRotorII 0 [12]).step).1) :=
  ⟨⟨by decide, by show loop 26 (23 + 1) ∈ ([24] : List Int); rw [loop26]; decide⟩,
   c3_stepping_carry.2 (mkRotor wRotorI 23 [24]) (mkRotor wRotorII 0 [12])
     [mkRotor wRotorIII 0 [3]] (by decide)
     (by show loop 26 (23 + 1) ∈ ([24] : List Int); rw [loop26]; decide)⟩

/-- C4: `translatePin` returns the pin computed by the §4.5 signal path
over the state as it was at the start of the call, and the only state
change is stepping the rotor stack afterwards — the output never sees the
post-step offsets. -/
theorem c4_translate_uses_prestep_offsets (m : Machine) (pin : Int) :
    (m.translatePin pin).1 = specSignalPath m pin ∧
    (m.translatePin pin).2 = { m with rotors := stepRotors m.rotors } :=
  ⟨rfl, rfl⟩

/-- C2: restoring the state just serialized (`stateSet(stateGet())`)
leaves the machine bit-identical, so any subsequent input sequence
translates to exactly the output sequence the unserialized machine would
have produced. -/
theorem c2_state_roundtrip (m : Machine) (input : List Nat) :
    m.stateSet m.stateGet = m ∧
    (m.stateSet m.stateGet).translateChunk input = m.translateChunk input :=
  ⟨rfl, rfl⟩

/-! ### Full-machine self-reciprocity -/

theorem pbApply_mem (pb : List Nat) (size : Nat)
    (hbound : ∀ p, p < size → pb.getD p 0 < size)
    (p : Int) (h0 : 0 ≤ p) (hp : p < (size : Int)) :
    0 ≤ pbApply pb p ∧ pbApply pb p < (size : Int) := by
  unfold pbApply
  refine ⟨Int.natCast_nonneg _, ?_⟩
  have hpn : p.toNat < size := by omega
  exact_mod_cast hbound _ hpn

theorem pbApply_invol (pb : List Nat) (size : Nat)
    (hinv : ∀ p, p < size → pb.getD (pb.getD p 0) 0 = p)
    (p : Int) (h0 : 0 ≤ p) (hp : p < (size : Int)) :
    pbApply pb (pbApply pb p) = p := by
  unfold pbApply
  have hpn : p.toNat < size := by omega
  rw [show ((pb.getD p.toNat 0 : Nat) : Int).toNat = pb.getD p.toNat 0 by omega]
  rw [hinv _ hpn]
  omega

/-- The §4.5 signal path is an involution on alphabet pins for any
machine whose plugboard comes from a valid pair stack, whose rotors are
well-formed, and whose reflector has an involutive wiring. -/
theorem specSignalPath_involutive (m : Machine) (stack : List (Nat × Nat))
    (hpb : m.plugboard = initPlugboard 26 stack) (hv : ValidStack 26 stack)
    (hrot : ∀ r ∈ m.rotors, RotorWF 26 r)
    (wr : List Nat) (sr : Int) (ntr : List Int)
    (hrefl : m.reflector = mkRotor wr sr ntr) (hwr : InvolutiveWiring wr)
    (hwlen : wr.length = 26)
    (x : Int) (h0 : 0 ≤ x) (hx : x < 26) :
    specSignalPath m (specSignalPath m x) = x := by
  obtain ⟨hlen, hbound, hinv, hfix⟩ := initPlugboard_spec 26 stack hv
  rw [← hpb] at hbound hinv
  have h26 : ((26 : Nat) : Int) = (26 : Int) := rfl
  have hx26 : x < ((26 : Nat) : Int) := by exact_mod_cast hx
  have hb0 := pbApply_mem m.plugboard 26 hbound x h0 hx26
  have hb1 := foldl_tf_mem 26 (by omega) m.rotors hrot _ hb0.1 hb0.2
  have hrsize : (mkRotor wr sr ntr).wiringSize = 26 := by
    rw [show (mkRotor wr sr ntr).wiringSize = wr.length from rfl, hwlen]
  have hreflmem : ∀ q : Int,
      0 ≤ (mkRotor wr sr ntr).translateForward q ∧
        (mkRotor wr sr ntr).translateForward q < ((26 : Nat) : Int) := by
    intro q
    have := (mkRotor wr sr ntr).translateForward_mem (by rw [hrsize]; omega) q
    rw [hrsize] at this
    exact this
  unfold specSignalPath
  rw [hrefl]
  have hb2 := hreflmem (m.rotors.foldl (fun p r => r.translateForward p)
    (pbApply m.plugboard x))
  have hb3 := foldl_tr_mem 26 (by omega) m.rotors.reverse
    (fun r hr => hrot r (List.mem_reverse.mp hr)) _ hb2.1 hb2.2
  rw [pbApply_invol m.plugboard 26 hinv _ hb3.1 hb3.2]
  rw [foldl_tf_foldl_tr 26 (by omega) m.rotors hrot _ hb2.1 hb2.2]
  rw [translateForward_involutive wr sr ntr hwr _ hb1.1 (by rw [hwlen]; exact hb1.2)]
  rw [foldl_tr_foldl_tf 26 (by omega) m.rotors hrot _ hb0.1 hb0.2]
  exact pbApply_invol m.plugboard 26 hinv x h0 hx26

/-- C1: for a machine with a disjoint-pair plugboard, well-formed rotors
and an involutive reflector wiring, snapshotting the state (`breakSet`),
translating pin `x`, restoring the snapshot (`breakGo`) and translating
the output pin yields `x` again. -/
theorem c1_self_reciprocity (m : Machine) (stack : List (Nat × Nat))
    (hpb : m.plugboard = initPlugboard 26 stack) (hv : ValidStack 26 stack)
    (hrot : ∀ r ∈ m.rotors, RotorWF 26 r)
    (wr : List Nat) (sr : Int) (ntr : List Int)
    (hrefl : m.reflector = mkRotor wr sr ntr) (hwr : InvolutiveWiring wr)
    (hwlen : wr.length = 26)
    (x : Int) (h0 : 0 ≤ x) (hx : x < 26) :
    ∃ m3 : Machine,
      ((m.breakSet.translatePin x).2).breakGo = some m3 ∧
      (m3.translatePin ((m.breakSet.translatePin x).1)).1 = x := by
  refine ⟨((m.breakSet.translatePin x).2).stateSet m.stateGet, rfl, ?_⟩
  show specSignalPath m (specSignalPath m x) = x
  exact specSignalPath_involutive m stack hpb hv hrot wr sr ntr hrefl hwr hwlen x h0 hx

theorem c1_self_reciprocity_witness :
    (ValidStack 26 [(0, 1)] ∧ InvolutiveWiring wUKW_B ∧ wUKW_B.length = 26 ∧
      (∀ r ∈ (mkMachine Mode.classic [(0, 1)]
          [mkRotor wRotorI 0 [24], mkRotor wRotorII 0 [12], mkRotor wRotorIII 0 [3]]
          (mkReflector wUKW_B)).rotors, RotorWF 26 r) ∧
      (0 : Int) ≤ 2 ∧ (2 : Int) < 26) ∧
    (∃ m3 : Machine,
      (((mkMachine Mode.classic [(0, 1)]
          [mkRotor wRotorI 0 [24], mkRotor wRotorII 0 [12], mkRotor wRotorIII 0 [3]]
          (mkReflector wUKW_B)).breakSet.translatePin 2).2).breakGo = some m3 ∧
      (m3.translatePin (((mkMachine Mode.classic [(0, 1)]
          [mkRotor wRotorI 0 [24], mkRotor wRotorII 0 [12], mkRotor wRotorIII 0 [3]]
          (mkReflector wUKW_B)).breakSet.translatePin 2).1)).1 = 2) := by
  have hrot : ∀ r ∈ (mkMachine Mode.classic [(0, 1)]
      [mkRotor wRotorI 0 [24], mkRotor wRotorII 0 [12], mkRotor wRotorIII 0 [3]]
      (mkReflector wUKW_B)).rotors, RotorWF 26 r := by
    intro r hr
    have hr1 : r ∈ [mkRotor wRotorI 0 [24], mkRotor wRotorII 0 [12],
        mkRotor wRotorIII 0 [3]] := hr
    have hr2 : r = mkRotor wRotorI 0 [24] ∨ r = mkRotor wRotorII 0 [12]
        ∨ r = mkRotor wRotorIII 0 [3] := by
      simpa using hr1
    rcases hr2 with rfl | rfl | rfl
    · exact ⟨wRotorI, 0, [24], rfl, by decide, by decide⟩
    · exact ⟨wRotorII, 0, [12], rfl, by decide, by decide⟩
    · exact ⟨wRotorIII, 0, [3], rfl, by decide, by decide⟩
  exact ⟨⟨by decide, by decide, by decide, hrot, by decide, by decide⟩,
    c1_self_reciprocity _ [(0, 1)] rfl (by decide) hrot wUKW_B 0 [0] rfl
      (by decide) (by decide) 2 (by decide) (by decide)⟩

/-! ### Wiring validation (C8) -/

/-- A wiring list that is not a permutation of the alphabet: position `B`
repeats the symbol `A` (as in a wiring string `AACDEFGHIJKLMNOPQRSTUVWXYZ`)
and no position maps to `B`. -/
def wBadWiring : List Nat :=
  [0, 0, 2, 3, 4, 5, 6, 7, 8, 9, 10, 11, 12, 13, 14, 15, 16, 17, 18, 19, 20,
   21, 22, 23, 24, 25]

/-- C8 counterexample: `_RotorBase.__init__` performs no wiring
validation (no `InvalidWiringError` exists anywhere in the code): a rotor
constructed from a non-permutation wiring is produced without error, and
its forward translation collapses pins 0 and 1 to the same output. -/
theorem c8_counterexample :
    (mkRotor wBadWiring 0 []).translateForward 0
        = (mkRotor wBadWiring 0 []).translateForward 1 ∧
    ¬ PermWiring wBadWiring := by
  constructor
  · rw [translateForward_mkRotor wBadWiring 0 [] (by decide) 0,
      translateForward_mkRotor wBadWiring 0 [] (by decide) 1]
    decide
  · decide

/-- C8 amended: constructing a rotor from a wiring that is not a
permutation of the alphabet does not fail — `__init__` builds the rotor
object anyway, and the resulting rotor has a non-injective forward
translation. -/
theorem c8_no_validation :
    (mkRotor wBadWiring 0 []).wiringSize = 26 ∧
    (mkRotor wBadWiring 0 []).translateForward 0 = 0 ∧
    (mkRotor wBadWiring 0 []).translateForward 1 = 0 ∧
    ¬ (∀ p q : Int, 0 ≤ p → p < 26 → 0 ≤ q → q < 26 →
        (mkRotor wBadWiring 0 []).translateForward p
            = (mkRotor wBadWiring 0 []).translateForward q → p = q) := by
  have h0 : (mkRotor wBadWiring 0 []).translateForward 0 = 0 := by
    rw [translateForward_mkRotor wBadWiring 0 [] (by decide) 0]
    decide
  have h1 : (mkRotor wBadWiring 0 []).translateForward 1 = 0 := by
    rw [translateForward_mkRotor wBadWiring 0 [] (by decide) 1]
    decide
  refine ⟨rfl, h0, h1, fun hinj => ?_⟩
  have := hinj 0 1 (by decide) (by decide) (by decide) (by decide) (h0.trans h1.symm)
  exact absurd this (by decide)

/-! ### Stream progress reporting (C9) -/

/-- The progress pairs recorded by the chunk loop: after the `i`-th chunk
the callback receives `stream_out_size = acc + (i + 1) * chunkSize`. -/
theorem streamLoop_progress (cs total : Nat) (chunks : List (List Nat)) :
    ∀ (m : Machine) (acc : Nat),
      (streamLoop cs total m acc chunks).2.2
        = (List.range chunks.length).map (fun i => (acc + (i + 1) * cs, total)) := by
  induction chunks with
  | nil => intro m acc; rfl
  | cons c rest ih =>
    intro m acc
    show ((acc + cs, total)
        :: (streamLoop cs total ((m.translateChunk c).1) (acc + cs) rest).2.2) = _
    rw [ih]
    simp only [List.length_cons]
    rw [List.range_succ_eq_map, List.map_cons, List.map_map]
    refine congrArg₂ List.cons ?_ (List.map_congr_left ?_)
    · simp only [Prod.mk.injEq]
      exact ⟨by ring, by trivial⟩
    · intro i _
      simp only [Function.comp, Prod.mk.injEq, Nat.succ_eq_add_one]
      exact ⟨by ring, by trivial⟩

/-- C9 counterexample: streaming a 3-symbol input with `chunkSize = 2`
reports `(0, 3), (2, 3), (4, 3)` — the final callback receives
`4 ≠ 3 = totalBytes`, because `translateStream` adds the full
`chunkSize` to the reported count even for a short final chunk. -/
theorem c9_counterexample :
    ((mkMachine Mode.classic [] [mkRotor wRotorI 0 [24]]
        (mkReflector wUKW_B)).translateStream [65, 65, 65] 2).2.2
      = [(0, 3), (2, 3), (4, 3)] ∧ (4 : Nat) ≠ 3 := by
  constructor
  · show ((0, 3) :: (streamLoop 2 3 _ 0 (chunksOf 2 [65, 65, 65])).2.2) = _
    rw [streamLoop_progress]
    have h1 : chunksOf 2 [65, 65, 65] = [65, 65] :: chunksOf 2 [65] := by
      rw [chunksOf.eq_def, dif_neg (by decide : ¬ ([65, 65, 65].take 2 = []))]
      rfl
    have h2 : chunksOf 2 [65] = [65] :: chunksOf 2 [] := by
      rw [chunksOf.eq_def, dif_neg (by decide : ¬ ([65].take 2 = []))]
      rfl
    have h3 : chunksOf 2 ([] : List Nat) = [] := by
      rw [chunksOf.eq_def, dif_pos (by decide : ([] : List Nat).take 2 = [])]
    have hc : chunksOf 2 [65, 65, 65] = [[65, 65], [65]] := by
      rw [h1, h2, h3]
    rw [hc]
    decide
  · decide

/-- C9 amended: the progress callback is invoked once before any work
with `(0, totalBytes)` and once after the `i`-th chunk with
`((i + 1) * chunkSize, totalBytes)` — a chunk count times the chunk size,
not the number of input bytes processed, so the final call matches the
input size only when `chunkSize` divides it. -/
theorem c9_progress_reports (m : Machine) (input : List Nat) (chunkSize : Nat) :
    (m.translateStream input chunkSize).2.2
      = (0, input.length)
          :: (List.range (chunksOf chunkSize input).length).map
              (fun i => ((i + 1) * chunkSize, input.length)) := by
  show ((0, input.length)
      :: (streamLoop chunkSize input.length m 0 (chunksOf chunkSize input)).2.2) = _
  rw [streamLoop_progress]
  refine congrArg (List.cons _) (List.map_congr_left ?_)
  intro i _
  simp only [Prod.mk.injEq]
  exact ⟨by ring, by trivial⟩

end Enigma
